import Mathlib

/-!
A shallow embedding of the fxread record model and streaming scanners.

Bytes are modelled as lists of natural numbers (each element the byte value).
`Record` mirrors `src/record.rs`: one buffer `data` plus the stored field
lengths `id`, `seq`, `plus`, `qual` (each length includes the terminating
newline of its line).  Buffer splicing (`Vec::splice` / `Vec::drain`) is
modelled by `replaceSeg`, and Rust slice indexing `data[a..b]` by `slice`.
The FASTQ byte scanner (`FastqBytes::next` in `src/fastq.rs`) and the
line-oriented FASTA reader (`src/fasta.rs`) are embedded as pure functions
over an input byte list.
-/

deriving instance DecidableEq for Except

namespace Fxread

/-- Byte strings: Rust `Vec<u8>` / `&[u8]`, one natural number per byte. -/
abbrev Bytes := List Nat

/-- Rust `data[a..b]`: the half-open byte range `[a, b)` of `l`. -/
def slice (l : Bytes) (a b : Nat) : Bytes := (l.take b).drop a

/-- Rust `Vec::splice(a..b, s)` / `Vec::drain(a..b)` (with `s = []`):
replace the range `[a, b)` of `l` by `s`. -/
def replaceSeg (l : Bytes) (a b : Nat) (s : Bytes) : Bytes :=
  l.take a ++ s ++ l.drop b

/-- `DEFAULT_QUAL`: the byte `b'F'` inserted as quality for inserted bases. -/
def DEFAULT_QUAL : Nat := 70

/-- `Record` from `src/record.rs`: owned buffer plus stored field lengths
(the `plus` and `qual` lengths are present exactly for FASTQ records). -/
structure Record where
  data : Bytes
  id : Nat
  seq : Nat
  plus : Option Nat
  qual : Option Nat
deriving Repr, DecidableEq

namespace Record

/-- `Record::new()`. -/
def new : Record := ⟨[], 0, 0, none, none⟩

/-- `Record::new_fasta(data, id, seq)`. -/
def new_fasta (data : Bytes) (id seq : Nat) : Record :=
  ⟨data, id, seq, none, none⟩

/-- `Record::new_fastq(data, id, seq, plus, qual)`. -/
def new_fastq (data : Bytes) (id seq plus qual : Nat) : Record :=
  ⟨data, id, seq, some plus, some qual⟩

/-- `Record::is_fasta()`. -/
def is_fasta (r : Record) : Bool := r.plus.isNone && r.qual.isNone

/-- `Record::is_fastq()`. -/
def is_fastq (r : Record) : Bool := r.plus.isSome && r.qual.isSome

/-- `Record::empty()`: `id == 0 || seq == 0`. -/
def empty (r : Record) : Bool := r.id == 0 || r.seq == 0

/-- `Record::id()`: the view `data[1..id]`. -/
def id_view (r : Record) : Bytes := slice r.data 1 r.id

/-- `Record::seq()`: the view `data[1 + id..id + seq]`. -/
def seq_view (r : Record) : Bytes := slice r.data (1 + r.id) (r.id + r.seq)

/-- `Record::plus()`: the view `data[1 + id + seq..id + seq + plus]` if fastq. -/
def plus_view (r : Record) : Option Bytes :=
  r.plus.map fun p => slice r.data (1 + r.id + r.seq) (r.id + r.seq + p)

/-- `Record::qual()`: the quality view; like `qual_range`, it requires the
`plus` length to be present as well. -/
def qual_view (r : Record) : Option Bytes :=
  match r.plus, r.qual with
  | some p, some q =>
      some (slice r.data (1 + r.id + r.seq + p) (r.id + r.seq + p + q))
  | _, _ => none

/-- `Record::valid_sequence()`: every sequence byte is one of
`A a C c G g T t N n U u`. -/
def valid_sequence (r : Record) : Bool :=
  (seq_view r).all fun c =>
    c == 65 || c == 97 || c == 67 || c == 99 || c == 71 || c == 103 ||
    c == 84 || c == 116 || c == 78 || c == 110 || c == 85 || c == 117

/-- `Record::valid()`. -/
def valid (r : Record) : Bool := if r.empty then false else r.valid_sequence

/-- The byte map inside `Record::seq_rev_comp` / `Record::rev_comp`:
`if c & 2 == 0 { c ^ 21 } else { c ^ 4 }`. -/
def compBase (c : Nat) : Nat := if c &&& 2 == 0 then c ^^^ 21 else c ^^^ 4

/-- `Record::seq_rev_comp()`: the sequence view reversed, then each byte
complemented; a fresh buffer, the record is untouched. -/
def seq_rev_comp (r : Record) : Bytes := (r.seq_view).reverse.map compBase

/-- The byte map inside `Record::fix`: keep `A a C c G g T t N n`,
replace anything else by `N`. -/
def fixByte (c : Nat) : Nat :=
  if c == 65 || c == 97 || c == 67 || c == 99 || c == 71 || c == 103 ||
     c == 84 || c == 116 || c == 78 || c == 110 then c else 78

/-- `Record::fix()`: rewrite the sequence range in place through `fixByte`. -/
def fix (r : Record) : Record :=
  { r with data := replaceSeg r.data (1 + r.id) (r.id + r.seq)
                      ((r.seq_view).map fixByte) }

/-- `Record::rev_comp()`: reverse the sequence range in place, complement it,
and reverse the quality range if present. -/
def rev_comp (r : Record) : Record :=
  let a := 1 + r.id
  let b := r.id + r.seq
  let d1 := replaceSeg r.data a b (slice r.data a b).reverse
  let d2 := replaceSeg d1 a b ((slice d1 a b).map compBase)
  match r.plus, r.qual with
  | some p, some q =>
      let qs := 1 + r.id + r.seq + p
      let qe := r.id + r.seq + p + q
      { r with data := replaceSeg d2 qs qe (slice d2 qs qe).reverse }
  | _, _ => { r with data := d2 }

/-- `Record::trim_left(size)`: fails iff `size > seq`; drains the first
`size` bytes of the sequence range and, for FASTQ, of the quality range. -/
def trim_left (r : Record) (size : Nat) : Except String Record :=
  if size > r.seq then .error "Cannot trim more than the sequence length"
  else
    let seq_start := 1 + r.id
    let r1 : Record :=
      { r with data := replaceSeg r.data seq_start (seq_start + size) [],
               seq := r.seq - size }
    match r1.plus, r1.qual with
    | some p, some q =>
        let qual_start := 1 + r1.id + r1.seq + p
        .ok { r1 with
                data := replaceSeg r1.data qual_start (qual_start + size) [],
                qual := some (q - size) }
    | _, _ => .ok r1

/-- `Record::trim_right(size)`: fails iff `size > seq`; drains the last
`size` bytes before the sequence terminator and, for FASTQ, before the
quality terminator. -/
def trim_right (r : Record) (size : Nat) : Except String Record :=
  if size > r.seq then .error "Cannot trim more than the sequence length"
  else
    let seq_end := r.id + r.seq
    let r1 : Record :=
      { r with data := replaceSeg r.data (seq_end - size) seq_end [],
               seq := r.seq - size }
    match r1.plus, r1.qual with
    | some p, some q =>
        let qual_end := r1.id + r1.seq + p + q
        .ok { r1 with
                data := replaceSeg r1.data (qual_end - size) qual_end [],
                qual := some (q - size) }
    | _, _ => .ok r1

/-- `Record::insert_qual(insert_size, pos)`: for FASTQ, splice a run of
`DEFAULT_QUAL` into the quality range.  The Rust code unwraps `qual_range`;
on a record with `qual` but no `plus` it would panic, modelled as an error
(unreachable for well-formed records). -/
def insert_qual (r : Record) (insert_size pos : Nat) : Except String Record :=
  match r.qual with
  | some q =>
      if pos > q then
        .error "Cannot insert at a position greater than the quality length"
      else
        match r.plus with
        | some p =>
            let ipos := 1 + r.id + r.seq + p + pos
            .ok { r with
                    data := replaceSeg r.data ipos ipos
                              (List.replicate insert_size DEFAULT_QUAL),
                    qual := some (q + insert_size) }
        | none => .error "panic: qual_range unwrap on a record without plus"
  | none => .ok r

/-- `Record::insert_seq(seq, pos)`: fails iff `pos >= seq`; splices the bytes
into the sequence range and aligns the quality range via `insert_qual`. -/
def insert_seq (r : Record) (s : Bytes) (pos : Nat) : Except String Record :=
  if pos ≥ r.seq then
    .error "Cannot insert at a position greater than the sequence length"
  else
    let ipos := 1 + r.id + pos
    insert_qual
      { r with data := replaceSeg r.data ipos ipos s, seq := r.seq + s.length }
      s.length pos

/-- `Record::new_fasta_from_parts(id, seq)`. -/
def new_fasta_from_parts (id seq : Bytes) : Except String Record :=
  if id.head? == some 62 then .error "ID cannot start with marker"
  else if id.getLast? == some 10 then .error "ID cannot end with newline"
  else if seq.getLast? == some 10 then .error "Sequence cannot end with newline"
  else .ok { data := [62] ++ id ++ [10] ++ seq ++ [10],
             id := id.length + 1, seq := seq.length + 1,
             plus := none, qual := none }

/-- `Record::new_fastq_from_parts(id, seq, qual)`. -/
def new_fastq_from_parts (id seq qual : Bytes) : Except String Record :=
  if id.head? == some 64 then .error "ID cannot start with marker"
  else if seq.length != qual.length then
    .error "Sequence and Quality must be the same length"
  else if id.getLast? == some 10 then .error "ID cannot end with newline"
  else if seq.getLast? == some 10 then .error "Sequence cannot end with newline"
  else if qual.getLast? == some 10 then .error "Quality cannot end with newline"
  else .ok { data := [64] ++ id ++ [10] ++ seq ++ [10, 43, 10] ++ qual ++ [10],
             id := id.length + 1, seq := seq.length + 1,
             plus := some 2, qual := some (qual.length + 1) }

/-- `Record::as_str()`: the whole buffer rendered back to text, modelled at
byte level (the Rust code decodes `data` as UTF-8). -/
def as_str (r : Record) : Bytes := r.data

end Record

/-- Whether an `Except` result is `ok` (Rust `Result::is_ok`). -/
def isOkE {α : Type} (e : Except String α) : Bool :=
  match e with
  | .ok _ => true
  | .error _ => false

/-- The stored-length accounting of a really-parsed record (section 3 of the
design): one marker byte, then the id, sequence, and (for FASTQ) plus and
quality lines, each line counted with its terminator by the corresponding
stored length; `plus` and `qual` are present together or not at all. -/
@[reducible] def plusLen (r : Record) : Nat := r.plus.getD 0

/-- Stored quality length, `0` for FASTA. -/
@[reducible] def qualLen (r : Record) : Nat := r.qual.getD 0

/-- Well-formedness of a record (the range invariant of section 3). -/
@[reducible] def wf (r : Record) : Prop :=
  1 ≤ r.id ∧ 1 ≤ r.seq ∧
  r.data.length = 1 + r.id + r.seq + plusLen r + qualLen r ∧
  (r.plus = none ↔ r.qual = none) ∧
  (r.plus ≠ none → 1 ≤ plusLen r) ∧
  (r.qual ≠ none → 1 ≤ qualLen r)

/-- A FASTQ record whose stored quality length equals its stored sequence
length (qualities aligned with bases). -/
@[reducible] def alignedQ (r : Record) : Prop :=
  r.qual ≠ none → qualLen r = r.seq

/-- Rust `BufRead::read_until(d, ..)`: bytes up to and including the first
occurrence of `d` (or all remaining bytes at end of input), plus the rest. -/
def readUntil (d : Nat) : Bytes → Bytes × Bytes
  | [] => ([], [])
  | x :: xs =>
      if x == d then ([x], xs)
      else
        let r := readUntil d xs
        (x :: r.1, r.2)

/-- `FastqBytes::next` from `src/fastq.rs`: consume the `@` marker into a
discarded buffer, then read the four lines into the record buffer; a
zero-byte read anywhere yields `None`; more than one byte consumed while
seeking the marker is a misplaced-marker error.  Returns the produced item
and the remaining input. -/
def fastqNext (input : Bytes) : Option (Except String Record) × Bytes :=
  let m := readUntil 64 input
  if m.1.length == 0 then (none, m.2)
  else if m.1.length == 1 then
    let i := readUntil 10 m.2
    if i.1.length == 0 then (none, i.2)
    else
      let s := readUntil 10 i.2
      if s.1.length == 0 then (none, s.2)
      else
        let p := readUntil 10 s.2
        if p.1.length == 0 then (none, p.2)
        else
          let q := readUntil 10 p.2
          if q.1.length == 0 then (none, q.2)
          else
            (some (.ok (Record.new_fastq (i.1 ++ s.1 ++ p.1 ++ q.1)
                          i.1.length s.1.length p.1.length q.1.length)), q.2)
  else (some (.error "Misplaced Fastq Marker Sequence"), m.2)

/-- Modelled from the spec: the String-based record type used by
`src/fasta.rs` (`Record::new`, `set_id`, `set_seq`, `empty`) is absent from
`src/record.rs`; per section 3 of the design a record is empty iff its id or
its sequence is missing (zero-length). -/
structure OldRecord where
  id : Bytes := []
  seq : Bytes := []
deriving Repr, DecidableEq

/-- Modelled from the spec: fresh record with both fields unset. -/
def OldRecord.new : OldRecord := {}

/-- Modelled from the spec: store the parsed identifier. -/
def OldRecord.set_id (r : OldRecord) (v : Bytes) : OldRecord := { r with id := v }

/-- Modelled from the spec: store the parsed sequence. -/
def OldRecord.set_seq (r : OldRecord) (v : Bytes) : OldRecord := { r with seq := v }

/-- Modelled from the spec: empty iff id or sequence is missing. -/
def OldRecord.empty (r : OldRecord) : Bool := r.id.isEmpty || r.seq.isEmpty

/-- Bytes Rust `str::trim_end` removes: ASCII whitespace. -/
def isRustWhitespace (c : Nat) : Bool :=
  c == 9 || c == 10 || c == 11 || c == 12 || c == 13 || c == 32

/-- Rust `str::trim_end` at byte level. -/
def rustTrimEnd (l : Bytes) : Bytes :=
  (l.reverse.dropWhile isRustWhitespace).reverse

/-- `FastaReader::parse_header`: require a leading `>`, strip all leading
`>` markers and trailing whitespace. -/
def parse_header (token : Bytes) : Except String Bytes :=
  match token with
  | x :: _ =>
      if x == 62 then .ok (rustTrimEnd (token.dropWhile fun c => c == 62))
      else .error "Header does not begin with marker"
  | [] => .error "Header does not begin with marker"

/-- The per-character normalization of `FastaReader::parse_sequence`:
upper-case `A C G T N` pass through, anything else is an error. -/
def normalizeBase (c : Nat) : Except String Nat :=
  if c == 65 || c == 97 then .ok 65
  else if c == 67 || c == 99 then .ok 67
  else if c == 71 || c == 103 then .ok 71
  else if c == 84 || c == 116 then .ok 84
  else if c == 78 || c == 110 then .ok 78
  else .error "Unexpected Character"

/-- `FastaReader::parse_sequence`: trim the end, then normalize every
character, failing on the first unexpected one. -/
def parse_sequence (token : Bytes) : Except String Bytes :=
  (rustTrimEnd token).mapM normalizeBase

/-- `FastaReader::next_record` from `src/fasta.rs`: read up to two lines
(breaking early on a zero-byte read), parse them as header and sequence, and
return `none` when the assembled record is empty. -/
def fastaNextRecord (input : Bytes) : Except String (Option OldRecord × Bytes) :=
  let l0 := readUntil 10 input
  if l0.1.length == 0 then .ok (none, l0.2)
  else
    match parse_header l0.1 with
    | .error e => .error e
    | .ok h =>
        let r1 := OldRecord.new.set_id h
        let l1 := readUntil 10 l0.2
        if l1.1.length == 0 then
          if r1.empty then .ok (none, l1.2) else .ok (some r1, l1.2)
        else
          match parse_sequence l1.1 with
          | .error e => .error e
          | .ok sv =>
              let r2 := r1.set_seq sv
              if r2.empty then .ok (none, l1.2) else .ok (some r2, l1.2)

/-- Truncation test for the FASTQ scanner: after the marker, does one of the
four line reads receive zero bytes? -/
def fastqLineTrunc (t : Bytes) : Bool :=
  let i := readUntil 10 t
  let s := readUntil 10 i.2
  let p := readUntil 10 s.2
  let q := readUntil 10 p.2
  i.1.isEmpty || s.1.isEmpty || p.1.isEmpty || q.1.isEmpty

/-- Spec-side predicate: the byte string starts with the byte `b`. -/
def startsWithByte (b : Nat) (l : Bytes) : Bool :=
  match l with
  | [] => false
  | x :: _ => decide (x = b)

/-- Spec-side predicate: the byte string ends with a line terminator. -/
def endsWithNl (l : Bytes) : Bool :=
  match l.getLast? with
  | some x => decide (x = 10)
  | none => false

/-- Spec-side reverse-complement table, following the spec wording
(A↔T, C↔G, case preserved) amended at `N`: the code maps `N` (78) to `J`
(74) and `n` (110) to `j` (106). -/
def tableComp (c : Nat) : Nat :=
  if c = 65 then 84 else if c = 84 then 65
  else if c = 67 then 71 else if c = 71 then 67
  else if c = 97 then 116 else if c = 116 then 97
  else if c = 99 then 103 else if c = 103 then 99
  else if c = 78 then 74 else if c = 110 then 106
  else c

/-- The record parsed from `">seq.0\nACGT\n"` (as `new_fasta` builds it). -/
def fastaACGT : Record :=
  Record.new_fasta [62, 115, 101, 113, 46, 48, 10, 65, 67, 71, 84, 10] 6 5

/-- The record parsed from `"@seq.0\nACGT\n+\n1234\n"`. -/
def fastqACGT : Record :=
  Record.new_fastq
    [64, 115, 101, 113, 46, 48, 10, 65, 67, 71, 84, 10, 43, 10, 49, 50, 51, 52, 10]
    6 5 2 5

/-- The record for `">x\nN\n"`: a single-base sequence `N`. -/
def fastaN : Record := Record.new_fasta [62, 120, 10, 78, 10] 2 2

/-- Bytes of `">seq.0\nABCD\n"`. -/
def abcdBytes : Bytes := [62, 115, 101, 113, 46, 48, 10, 65, 66, 67, 68, 10]

/-- The record over `">seq.0\nABCD\n"` built directly via `new_fasta`. -/
def fastaABCD : Record := Record.new_fasta abcdBytes 6 5

/-- Bytes of `"@seq.0\nACGT\n+\n1234\n"`. -/
def fastqInputB : Bytes :=
  [64, 115, 101, 113, 46, 48, 10, 65, 67, 71, 84, 10, 43, 10, 49, 50, 51, 52, 10]

/-- The record `FastqBytes::next` actually builds from `fastqInputB`: the
marker byte was consumed into the discarded buffer, so `data` lacks it. -/
def fastqRecB : Record :=
  ⟨[115, 101, 113, 46, 48, 10, 65, 67, 71, 84, 10, 43, 10, 49, 50, 51, 52, 10],
   6, 5, some 2, some 5⟩

/-- Bytes of `"@id\nACGTA\n+\n12\n"`: sequence and quality lines of different
lengths. -/
def mismatchInput : Bytes :=
  [64, 105, 100, 10, 65, 67, 71, 84, 65, 10, 43, 10, 49, 50, 10]

/-- The record the FASTQ scanner builds from `mismatchInput`. -/
def mismatchRec : Record :=
  ⟨[105, 100, 10, 65, 67, 71, 84, 65, 10, 43, 10, 49, 50, 10], 3, 6, some 2, some 3⟩

/-- The record produced by `trim_left 5` on `fastaACGT`: the whole sequence
line, terminator included, was drained and the stored `seq` is now `0`. -/
def fastaACGTdrained : Record := ⟨[62, 115, 101, 113, 46, 48, 10], 6, 0, none, none⟩

/-- C1, counterexample: the claim says a trim size equal to the current field
length fails with `OutOfRange`, but `trim_left`/`trim_right` only fail on
sizes strictly greater than the stored `seq` count: on `fastaACGT` (stored
`seq = 5`, visible sequence length `4`) both a trim of `4` and a trim of `5`
succeed. -/
theorem c1_counterexample :
    fastaACGT.seq = 5 ∧ (Record.seq_view fastaACGT).length = 4 ∧
    isOkE (Record.trim_left fastaACGT 4) = true ∧
    isOkE (Record.trim_left fastaACGT 5) = true ∧
    isOkE (Record.trim_right fastaACGT 5) = true ∧
    isOkE (Record.trim_left fastaACGT 6) = false := by
  decide

/-- C3, counterexample: on the record with sequence `"N"`, `seq_rev_comp`
returns `"J"` (byte 74), not `"N"` (byte 78), so the claimed complement map
`N↔N` does not hold. -/
theorem c3_counterexample :
    Record.seq_view fastaN = [78] ∧
    Record.seq_rev_comp fastaN = [74] ∧
    Record.seq_rev_comp fastaN ≠ [78] := by
  decide

/-- C4, counterexample: parsing `">seq.0\nABCD\n"` with the FASTA reader
fails with an unexpected-character error instead of yielding an invalid
record. -/
theorem c4_counterexample :
    fastaNextRecord abcdBytes = .error "Unexpected Character" := by
  decide

/-- C4, amended: parsing `">seq.0\nABCD\n"` fails with an unexpected-character
error; a record constructed directly over the same bytes (`new_fasta` with
`id = 6`, `seq = 5`) is non-empty and invalid, and after `fix()` its sequence
is `"ANCN"` and it is valid. -/
theorem c4_amended :
    fastaNextRecord abcdBytes = .error "Unexpected Character" ∧
    Record.empty fastaABCD = false ∧
    Record.valid fastaABCD = false ∧
    Record.seq_view (Record.fix fastaABCD) = [65, 78, 67, 78] ∧
    Record.valid (Record.fix fastaABCD) = true := by
  decide

/-- C5, counterexample: the trim size `5` is accepted on `fastaACGT` (whose
visible sequence length is `4`), and afterwards the new sequence length is
`0`, not `4 - 5`: the claimed accounting fails at the accepted boundary
size. -/
theorem c5_counterexample :
    Record.trim_left fastaACGT 5 = .ok fastaACGTdrained ∧
    ((Record.seq_view fastaACGTdrained).length : ℤ) ≠
      ((Record.seq_view fastaACGT).length : ℤ) - 5 := by
  decide

/-- C6: on input `"@seq.0\nACGT\n+\n1234\n"` the FASTQ scanner returns one
record and then exhaustion, but because the marker byte was read into the
discarded buffer while the offsets assume it is present, the views are
shifted: `id()` is `"eq.0\n"` rather than `"seq.0"`, `seq()` is `"CGT\n"`
rather than `"ACGT"`, `plus()` is `"\n"` and `qual()` is `"234\n"`. -/
theorem c6_eval :
    fastqNext fastqInputB = (some (.ok fastqRecB), []) ∧
    Record.id_view fastqRecB = [101, 113, 46, 48, 10] ∧
    Record.id_view fastqRecB ≠ [115, 101, 113, 46, 48] ∧
    Record.seq_view fastqRecB = [67, 71, 84, 10] ∧
    Record.seq_view fastqRecB ≠ [65, 67, 71, 84] ∧
    Record.plus_view fastqRecB = some [10] ∧
    Record.qual_view fastqRecB = some [50, 51, 52, 10] ∧
    (fastqNext []).1 = none := by
  decide

/-- C9, counterexample: an identifier with an embedded (non-trailing) line
terminator is accepted by `new_fasta_from_parts`; only trailing terminators
are rejected. -/
theorem c9_counterexample :
    ([97, 10, 98] : Bytes).contains 10 = true ∧
    isOkE (Record.new_fasta_from_parts [97, 10, 98] [65, 67]) = true := by
  decide

/-- C10: on input `"@id\nACGTA\n+\n12\n"` (sequence and quality lines of
different lengths) the FASTQ scanner performs no structural validation: it
returns a record, not an error, and the `seq()` and `qual()` views of that
record have unequal lengths. -/
theorem c10_no_validation :
    fastqNext mismatchInput = (some (.ok mismatchRec), []) ∧
    (Record.seq_view mismatchRec).length = 5 ∧
    Record.qual_view mismatchRec = some [50, 10] ∧
    (Record.seq_view mismatchRec).length ≠
      ((Record.qual_view mismatchRec).getD []).length := by
  decide

/-- Bridge: `startsWithByte` agrees with the head test. -/
lemma startsWithByte_iff (b : Nat) (l : Bytes) :
    startsWithByte b l = true ↔ l.head? = some b := by
  cases l <;> simp [startsWithByte]

/-- Bridge: `endsWithNl` agrees with the last-byte test. -/
lemma endsWithNl_iff (l : Bytes) :
    endsWithNl l = true ↔ l.getLast? = some 10 := by
  unfold endsWithNl
  cases h : l.getLast? <;> simp

/-- C8: whenever a part-based constructor accepts its inputs, the rendered
record is exactly `">id\nseq\n"` (FASTA) or `"@id\nseq\n+\nqual\n"`
(FASTQ). -/
theorem c8_roundtrip :
    (∀ i s r, Record.new_fasta_from_parts i s = .ok r →
      Record.as_str r = [62] ++ i ++ [10] ++ s ++ [10]) ∧
    (∀ i s q r, Record.new_fastq_from_parts i s q = .ok r →
      Record.as_str r = [64] ++ i ++ [10] ++ s ++ [10, 43, 10] ++ q ++ [10]) := by
  constructor
  · intro i s r h
    unfold Record.new_fasta_from_parts at h
    repeat' split at h
    all_goals first
      | exact Except.noConfusion h
      | (injection h with h
         rw [← h]
         rfl)
  · intro i s q r h
    unfold Record.new_fastq_from_parts at h
    repeat' split at h
    all_goals first
      | exact Except.noConfusion h
      | (injection h with h
         rw [← h]
         rfl)

/-- The FASTA record produced from parts `id = "s"`, `seq = "A"`. -/
def partsFa : Record := ⟨[62, 115, 10, 65, 10], 2, 2, none, none⟩

/-- The FASTQ record produced from parts `id = "s"`, `seq = "A"`,
`qual = "1"`. -/
def partsFq : Record := ⟨[64, 115, 10, 65, 10, 43, 10, 49, 10], 2, 2, some 2, some 2⟩

/-- C8, witness: the round-trip theorem applied to concrete parts. -/
theorem c8_witness :
    Record.as_str partsFa = [62] ++ [115] ++ [10] ++ [65] ++ [10] ∧
    Record.as_str partsFq =
      [64] ++ [115] ++ [10] ++ [65] ++ [10, 43, 10] ++ [49] ++ [10] :=
  ⟨c8_roundtrip.1 [115] [65] partsFa (by decide),
   c8_roundtrip.2 [115] [65] [49] partsFq (by decide)⟩

/-- C9, amended: the part-based constructors fail exactly when the identifier
starts with the record marker, some part ends with a line terminator, or (for
FASTQ) sequence and quality lengths differ; embedded terminators elsewhere
are not rejected. -/
theorem c9_amended :
    (∀ i s, isOkE (Record.new_fasta_from_parts i s) = true ↔
      ¬ startsWithByte 62 i = true ∧ ¬ endsWithNl i = true ∧
      ¬ endsWithNl s = true) ∧
    (∀ i s q, isOkE (Record.new_fastq_from_parts i s q) = true ↔
      ¬ startsWithByte 64 i = true ∧ s.length = q.length ∧
      ¬ endsWithNl i = true ∧ ¬ endsWithNl s = true ∧
      ¬ endsWithNl q = true) := by
  constructor
  · intro i s
    unfold Record.new_fasta_from_parts
    split
    · next hc => simp_all [isOkE, startsWithByte_iff, endsWithNl_iff]
    · next hc =>
        split
        · next hd => simp_all [isOkE, startsWithByte_iff, endsWithNl_iff]
        · next hd =>
            split
            · next he => simp_all [isOkE, startsWithByte_iff, endsWithNl_iff]
            · next he => simp_all [isOkE, startsWithByte_iff, endsWithNl_iff]
  · intro i s q
    unfold Record.new_fastq_from_parts
    repeat' split
    all_goals simp_all [isOkE, startsWithByte_iff, endsWithNl_iff]

/-- C9, witness: the amended characterization applied to concrete parts,
one accepted FASTA case and one rejected FASTQ case (quality ending in a
terminator). -/
theorem c9_witness :
    (isOkE (Record.new_fasta_from_parts [115] [65]) = true ↔
      ¬ startsWithByte 62 [115] = true ∧ ¬ endsWithNl [115] = true ∧
      ¬ endsWithNl [65] = true) ∧
    (isOkE (Record.new_fastq_from_parts [115] [65] [10]) = true ↔
      ¬ startsWithByte 64 [115] = true ∧ ([65] : Bytes).length = ([10] : Bytes).length ∧
      ¬ endsWithNl [115] = true ∧ ¬ endsWithNl [65] = true ∧
      ¬ endsWithNl [10] = true) :=
  ⟨c9_amended.1 [115] [65], c9_amended.2 [115] [65] [10]⟩

/-- C7: a zero-byte read mid-record makes the FASTQ scanner yield no more
records rather than an error or a partial record, a clean end of stream
yields no more records, and the FASTA reader likewise returns `none` on an
empty input and on an input that ends after the header line. -/
theorem c7_truncation :
    (fastqNext []).1 = none ∧
    (∀ t, fastqLineTrunc t = true → (fastqNext (64 :: t)).1 = none) ∧
    fastaNextRecord [] = .ok (none, []) ∧
    (∀ input idv, readUntil 10 input = (idv, []) → idv ≠ [] →
      isOkE (parse_header idv) = true → fastaNextRecord input = .ok (none, [])) := by
  refine ⟨rfl, ?_, rfl, ?_⟩
  · intro t ht
    have hm : readUntil 64 (64 :: t) = ([64], t) := by simp [readUntil]
    rcases hI : readUntil 10 t with ⟨i1, i2⟩
    rcases hS : readUntil 10 i2 with ⟨s1, s2⟩
    rcases hP : readUntil 10 s2 with ⟨p1, p2⟩
    rcases hQ : readUntil 10 p2 with ⟨q1, q2⟩
    unfold fastqLineTrunc at ht
    simp only [hI, hS, hP, hQ, List.isEmpty_iff, Bool.or_eq_true] at ht
    unfold fastqNext
    simp only [hm, hI, hS, hP, hQ]
    by_cases h1 : i1 = []
    · simp [h1]
    · by_cases h2 : s1 = []
      · simp [List.length_eq_zero, h1, h2]
      · by_cases h3 : p1 = []
        · simp [List.length_eq_zero, h1, h2, h3]
        · by_cases h4 : q1 = []
          · simp [List.length_eq_zero, h1, h2, h3, h4]
          · simp [h1, h2, h3, h4] at ht
  · intro input idv h hne hok
    unfold fastaNextRecord
    rw [h]
    rcases hph : parse_header idv with e | hh
    · rw [hph] at hok
      simp [isOkE] at hok
    · simp [List.length_eq_zero, hne, hph, readUntil,
            OldRecord.empty, OldRecord.set_id, OldRecord.new]

/-- C7, witness: the truncation theorem applied to the concrete inputs
`"@h\n"` (FASTQ, stream ends after the id line) and `">x\n"` (FASTA, stream
ends after the header line). -/
theorem c7_witness :
    (fastqNext (64 :: [104, 10])).1 = none ∧
    fastaNextRecord [62, 120, 10] = .ok (none, []) :=
  ⟨c7_truncation.2.1 [104, 10] (by decide),
   c7_truncation.2.2.2 [62, 120, 10] [62, 120, 10] (by decide) (by decide) (by decide)⟩

/-- Reading the byte range occupied by the middle block of a three-block
concatenation returns that block. -/
lemma slice_mid (A B C : Bytes) (a b : Nat) (ha : A.length = a)
    (hb : A.length + B.length = b) : slice (A ++ B ++ C) a b = B := by
  unfold slice
  have h1 : (A ++ B ++ C).take b = A ++ B :=
    List.take_left' (by simp [hb])
  rw [h1]
  exact List.drop_left' ha

/-- Replacing the byte range occupied by the middle block of a three-block
concatenation splices in the replacement. -/
lemma replaceSeg_mid (A B C s : Bytes) (a b : Nat) (ha : A.length = a)
    (hb : A.length + B.length = b) : replaceSeg (A ++ B ++ C) a b s = A ++ s ++ C := by
  unfold replaceSeg
  have h1 : (A ++ B ++ C).take a = A := by
    rw [List.append_assoc]
    exact List.take_left' ha
  have h2 : (A ++ B ++ C).drop b = C :=
    List.drop_left' (by simp [hb])
  rw [h1, h2]

/-- Length of a faithful range replacement. -/
lemma replaceSeg_length (l : Bytes) (a b : Nat) (s : Bytes) (hal : a ≤ l.length) :
    (replaceSeg l a b s).length = a + s.length + (l.length - b) := by
  simp [replaceSeg]
  omega

/-- Decomposition of a well-formed FASTA record into marker, id line,
visible sequence, and sequence terminator. -/
lemma wf_decomp_fasta (r : Record) (hp : r.plus = none) (hq : r.qual = none)
    (hw : wf r) :
    ∃ M I Sv st, r.data = M ++ I ++ Sv ++ [st] ∧
      M.length = 1 ∧ I.length = r.id ∧ Sv.length = r.seq - 1 := by
  obtain ⟨hid, hseq, hlen, -, -, -⟩ := hw
  have hlen' : r.data.length = 1 + r.id + r.seq := by
    simpa [plusLen, qualLen, hp, hq] using hlen
  have h3 : (((r.data.drop 1).drop r.id).drop (r.seq - 1)).length = 1 := by
    simp [hlen']
    omega
  obtain ⟨st, hst⟩ := List.length_eq_one.mp h3
  refine ⟨r.data.take 1, (r.data.drop 1).take r.id,
          ((r.data.drop 1).drop r.id).take (r.seq - 1), st, ?_, ?_, ?_, ?_⟩
  · rw [← hst]
    simp only [List.append_assoc]
    simp only [List.take_append_drop]
  · simp [hlen']
    omega
  · simp [hlen']
    omega
  · simp [hlen']
    omega

/-- Decomposition of a well-formed FASTQ record into marker, id line,
visible sequence, sequence terminator, plus line, visible quality, and
quality terminator. -/
lemma wf_decomp_fastq (r : Record) (p q : Nat) (hp : r.plus = some p)
    (hq : r.qual = some q) (hw : wf r) :
    ∃ M I Sv st P Qv qt, r.data = M ++ I ++ Sv ++ [st] ++ P ++ Qv ++ [qt] ∧
      M.length = 1 ∧ I.length = r.id ∧ Sv.length = r.seq - 1 ∧
      P.length = p ∧ Qv.length = q - 1 ∧ 1 ≤ q := by
  obtain ⟨hid, hseq, hlen, -, -, hql⟩ := hw
  have hq1 : 1 ≤ q := by
    have h := hql (by rw [hq]; simp)
    simpa [qualLen, hq] using h
  have hlen' : r.data.length = 1 + r.id + r.seq + p + q := by
    simpa [plusLen, qualLen, hp, hq] using hlen
  have h3 : ((((r.data.drop 1).drop r.id).drop (r.seq - 1)).take 1).length = 1 := by
    simp [hlen']
    omega
  obtain ⟨st, hst⟩ := List.length_eq_one.mp h3
  have h4 : (((((((r.data.drop 1).drop r.id).drop (r.seq - 1)).drop 1).drop p).drop
      (q - 1))).length = 1 := by
    simp [hlen']
    omega
  obtain ⟨qt, hqt⟩ := List.length_eq_one.mp h4
  refine ⟨r.data.take 1, (r.data.drop 1).take r.id,
          ((r.data.drop 1).drop r.id).take (r.seq - 1), st,
          ((((r.data.drop 1).drop r.id).drop (r.seq - 1)).drop 1).take p,
          (((((r.data.drop 1).drop r.id).drop (r.seq - 1)).drop 1).drop p).take (q - 1),
          qt, ?_, ?_, ?_, ?_, ?_, ?_, hq1⟩
  · rw [← hst, ← hqt]
    simp only [List.append_assoc]
    simp only [List.take_append_drop]
  · simp [hlen']
    omega
  · simp [hlen']
    omega
  · simp [hlen']
    omega
  · simp [hlen']
    omega
  · simp [hlen']
    omega

/-- Reading the sequence view of a record whose buffer is decomposed into
marker-and-id prefix, visible sequence, and remainder. -/
lemma seq_view_shape (r : Record) (M I Sv rest : Bytes)
    (hdata : r.data = M ++ I ++ Sv ++ rest) (hM : M.length = 1)
    (hI : I.length = r.id) (hSv : Sv.length = r.seq - 1) (hseq : 1 ≤ r.seq) :
    Record.seq_view r = Sv := by
  unfold Record.seq_view
  have hA : r.data = (M ++ I) ++ Sv ++ rest := hdata
  rw [hA]
  exact slice_mid _ _ _ _ _ (by simp [hM, hI]) (by simp [hM, hI, hSv]; omega)

/-- Reading the quality view of a decomposed FASTQ record. -/
lemma qual_view_shape (r : Record) (p q : Nat) (M I Sv P Qv : Bytes) (st qt : Nat)
    (hp : r.plus = some p) (hq : r.qual = some q)
    (hdata : r.data = M ++ I ++ Sv ++ [st] ++ P ++ Qv ++ [qt])
    (hM : M.length = 1) (hI : I.length = r.id) (hSv : Sv.length = r.seq - 1)
    (hP : P.length = p) (hQv : Qv.length = q - 1)
    (hseq : 1 ≤ r.seq) (hq1 : 1 ≤ q) :
    Record.qual_view r = some Qv := by
  unfold Record.qual_view
  simp only [hp, hq]
  refine congrArg some ?_
  rw [hdata]
  exact slice_mid _ _ _ _ _ (by simp [hM, hI, hSv, hP]; omega)
    (by simp [hM, hI, hSv, hP, hQv]; omega)

/-- The buffer rewrite performed by `rev_comp` on a decomposed FASTA
record. -/
lemma rev_comp_shape_fasta (r : Record) (M I Sv : Bytes) (st : Nat)
    (hp : r.plus = none) (hq : r.qual = none)
    (hdata : r.data = M ++ I ++ Sv ++ [st])
    (hM : M.length = 1) (hI : I.length = r.id) (hSv : Sv.length = r.seq - 1)
    (hseq : 1 ≤ r.seq) :
    Record.rev_comp r =
      { r with data := M ++ I ++ (Sv.reverse.map Record.compBase) ++ [st] } := by
  have hA : r.data = (M ++ I) ++ Sv ++ [st] := hdata
  have ha : (M ++ I).length = 1 + r.id := by simp [hM, hI]
  have hb : (M ++ I).length + Sv.length = r.id + r.seq := by
    simp [hM, hI, hSv]
    omega
  have hb1 : (M ++ I).length + Sv.reverse.length = r.id + r.seq := by
    simp [hM, hI, hSv]
    omega
  have e1 : slice r.data (1 + r.id) (r.id + r.seq) = Sv := by
    rw [hA]
    exact slice_mid _ _ _ _ _ ha hb
  have e2 : replaceSeg r.data (1 + r.id) (r.id + r.seq) Sv.reverse
      = (M ++ I) ++ Sv.reverse ++ [st] := by
    rw [hA]
    exact replaceSeg_mid _ _ _ _ _ _ ha hb
  have e3 : slice ((M ++ I) ++ Sv.reverse ++ [st]) (1 + r.id) (r.id + r.seq)
      = Sv.reverse := slice_mid _ _ _ _ _ ha hb1
  have e4 : replaceSeg ((M ++ I) ++ Sv.reverse ++ [st]) (1 + r.id) (r.id + r.seq)
        (Sv.reverse.map Record.compBase)
      = (M ++ I) ++ (Sv.reverse.map Record.compBase) ++ [st] :=
    replaceSeg_mid _ _ _ _ _ _ ha hb1
  unfold Record.rev_comp
  simp only [hp, hq]
  rw [e1, e2, e3, e4]

/-- The buffer rewrite performed by `rev_comp` on a decomposed FASTQ
record. -/
lemma rev_comp_shape_fastq (r : Record) (p q : Nat) (M I Sv P Qv : Bytes)
    (st qt : Nat)
    (hp : r.plus = some p) (hq : r.qual = some q)
    (hdata : r.data = M ++ I ++ Sv ++ [st] ++ P ++ Qv ++ [qt])
    (hM : M.length = 1) (hI : I.length = r.id) (hSv : Sv.length = r.seq - 1)
    (hP : P.length = p) (hQv : Qv.length = q - 1) (hseq : 1 ≤ r.seq)
    (hq1 : 1 ≤ q) :
    Record.rev_comp r = { r with data :=
      M ++ I ++ (Sv.reverse.map Record.compBase) ++ [st] ++ P ++ Qv.reverse ++ [qt] } := by
  have hA : r.data = (M ++ I) ++ Sv ++ ([st] ++ P ++ Qv ++ [qt]) := by
    rw [hdata]
    simp [List.append_assoc]
  have ha : (M ++ I).length = 1 + r.id := by simp [hM, hI]
  have hb : (M ++ I).length + Sv.length = r.id + r.seq := by
    simp [hM, hI, hSv]
    omega
  have hb1 : (M ++ I).length + Sv.reverse.length = r.id + r.seq := by
    simp [hM, hI, hSv]
    omega
  have e1 : slice r.data (1 + r.id) (r.id + r.seq) = Sv := by
    rw [hA]
    exact slice_mid _ _ _ _ _ ha hb
  have e2 : replaceSeg r.data (1 + r.id) (r.id + r.seq) Sv.reverse
      = (M ++ I) ++ Sv.reverse ++ ([st] ++ P ++ Qv ++ [qt]) := by
    rw [hA]
    exact replaceSeg_mid _ _ _ _ _ _ ha hb
  have e3 : slice ((M ++ I) ++ Sv.reverse ++ ([st] ++ P ++ Qv ++ [qt]))
        (1 + r.id) (r.id + r.seq) = Sv.reverse :=
    slice_mid _ _ _ _ _ ha hb1
  have e4 : replaceSeg ((M ++ I) ++ Sv.reverse ++ ([st] ++ P ++ Qv ++ [qt]))
        (1 + r.id) (r.id + r.seq) (Sv.reverse.map Record.compBase)
      = (M ++ I) ++ (Sv.reverse.map Record.compBase) ++ ([st] ++ P ++ Qv ++ [qt]) :=
    replaceSeg_mid _ _ _ _ _ _ ha hb1
  have hB : (M ++ I) ++ (Sv.reverse.map Record.compBase) ++ ([st] ++ P ++ Qv ++ [qt])
      = ((M ++ I) ++ (Sv.reverse.map Record.compBase) ++ ([st] ++ P)) ++ Qv ++ [qt] := by
    simp [List.append_assoc]
  have ha2 : ((M ++ I) ++ (Sv.reverse.map Record.compBase) ++ ([st] ++ P)).length
      = 1 + r.id + r.seq + p := by
    simp [hM, hI, hSv, hP]
    omega
  have hb2 : ((M ++ I) ++ (Sv.reverse.map Record.compBase) ++ ([st] ++ P)).length
        + Qv.length = r.id + r.seq + p + q := by
    simp [hM, hI, hSv, hP, hQv]
    omega
  have e5 : slice ((M ++ I) ++ (Sv.reverse.map Record.compBase) ++ ([st] ++ P ++ Qv ++ [qt]))
        (1 + r.id + r.seq + p) (r.id + r.seq + p + q) = Qv := by
    rw [hB]
    exact slice_mid _ _ _ _ _ ha2 hb2
  have e6 : replaceSeg ((M ++ I) ++ (Sv.reverse.map Record.compBase) ++ ([st] ++ P ++ Qv ++ [qt]))
        (1 + r.id + r.seq + p) (r.id + r.seq + p + q) Qv.reverse
      = ((M ++ I) ++ (Sv.reverse.map Record.compBase) ++ ([st] ++ P)) ++ Qv.reverse ++ [qt] := by
    rw [hB]
    exact replaceSeg_mid _ _ _ _ _ _ ha2 hb2
  unfold Record.rev_comp
  simp only [hp, hq]
  rw [e1, e2, e3, e4, e5, e6]
  simp [List.append_assoc]

/-- Views and well-formedness through one application of `rev_comp`. -/
lemma rev_comp_views (r : Record) (hw : wf r) :
    Record.seq_view (Record.rev_comp r) = (Record.seq_view r).reverse.map Record.compBase ∧
    Record.qual_view (Record.rev_comp r) = (Record.qual_view r).map List.reverse ∧
    wf (Record.rev_comp r) := by
  obtain ⟨hid, hseq, hlen, hiff, hpl, hql⟩ := hw
  cases hp : r.plus with
  | none =>
      have hq : r.qual = none := hiff.mp hp
      obtain ⟨M, I, Sv, st, hdata, hM, hI, hSv⟩ :=
        wf_decomp_fasta r hp hq ⟨hid, hseq, hlen, hiff, hpl, hql⟩
      have hshape := rev_comp_shape_fasta r M I Sv st hp hq hdata hM hI hSv hseq
      refine ⟨?_, ?_, ?_⟩
      · rw [hshape]
        rw [seq_view_shape { r with data := M ++ I ++ (Sv.reverse.map Record.compBase) ++ [st] }
              M I (Sv.reverse.map Record.compBase) [st] rfl hM hI (by simp [hSv]) hseq]
        rw [seq_view_shape r M I Sv [st] hdata hM hI hSv hseq]
      · rw [hshape]
        simp [Record.qual_view, hp, hq]
      · rw [hshape]
        refine ⟨hid, hseq, ?_, hiff, hpl, hql⟩
        have hlen2 := congrArg List.length hdata
        simp [plusLen, qualLen, hp, hq] at hlen2 ⊢
        omega
  | some p =>
      have hqex : ∃ q, r.qual = some q := by
        cases hqv : r.qual with
        | none => exact absurd (hiff.mpr hqv) (by simp [hp])
        | some q => exact ⟨q, rfl⟩
      obtain ⟨q, hq⟩ := hqex
      obtain ⟨M, I, Sv, st, P, Qv, qt, hdata, hM, hI, hSv, hP, hQv, hq1⟩ :=
        wf_decomp_fastq r p q hp hq ⟨hid, hseq, hlen, hiff, hpl, hql⟩
      have hshape := rev_comp_shape_fastq r p q M I Sv P Qv st qt hp hq hdata
        hM hI hSv hP hQv hseq hq1
      refine ⟨?_, ?_, ?_⟩
      · rw [hshape]
        rw [seq_view_shape
              { r with data := M ++ I ++ (Sv.reverse.map Record.compBase) ++ [st] ++ P ++
                  Qv.reverse ++ [qt] }
              M I (Sv.reverse.map Record.compBase) ([st] ++ P ++ Qv.reverse ++ [qt])
              (by simp [List.append_assoc]) hM hI (by simp [hSv]) hseq]
        rw [seq_view_shape r M I Sv ([st] ++ P ++ Qv ++ [qt])
              (by rw [hdata]; simp [List.append_assoc]) hM hI hSv hseq]
      · rw [hshape]
        rw [qual_view_shape
              { r with data := M ++ I ++ (Sv.reverse.map Record.compBase) ++ [st] ++ P ++
                  Qv.reverse ++ [qt] }
              p q M I (Sv.reverse.map Record.compBase) P Qv.reverse st qt hp hq rfl
              hM hI (by simp [hSv]) hP (by simp [hQv]) hseq hq1]
        rw [qual_view_shape r p q M I Sv P Qv st qt hp hq hdata hM hI hSv hP hQv hseq hq1]
        rfl
      · rw [hshape]
        refine ⟨hid, hseq, ?_, hiff, hpl, hql⟩
        have hlen2 := congrArg List.length hdata
        simp [plusLen, qualLen, hp, hq] at hlen2 ⊢
        omega

/-- The complement byte map of `rev_comp` is an involution. -/
lemma compBase_compBase (c : Nat) : Record.compBase (Record.compBase c) = c := by
  unfold Record.compBase
  by_cases h : c &&& 2 = 0
  · have h21 : (c ^^^ 21) &&& 2 = 0 := by
      rw [Nat.and_xor_distrib_right, h]
      rfl
    simp [h, h21, Nat.xor_cancel_right]
  · have h4 : ¬ (c ^^^ 4) &&& 2 = 0 := by
      rw [Nat.and_xor_distrib_right]
      simpa using h
    simp [h, h4, Nat.xor_cancel_right]

/-- Mapping the complement byte map twice is the identity on byte lists. -/
lemma map_compBase_compBase (l : Bytes) :
    (l.map Record.compBase).map Record.compBase = l := by
  induction l with
  | nil => rfl
  | cons x t ih => simp [compBase_compBase, ih]

/-- C2: for every well-formed valid record, applying `rev_comp` twice
restores the sequence view, and the quality view (when present) is likewise
restored. -/
theorem c2_roundtrip (r : Record) (hw : wf r) (_hv : Record.valid r = true) :
    Record.seq_view (Record.rev_comp (Record.rev_comp r)) = Record.seq_view r ∧
    Record.qual_view (Record.rev_comp (Record.rev_comp r)) = Record.qual_view r := by
  obtain ⟨h1, h2, hw1⟩ := rev_comp_views r hw
  obtain ⟨g1, g2, -⟩ := rev_comp_views _ hw1
  constructor
  · rw [g1, h1, List.map_reverse, map_compBase_compBase, List.reverse_reverse]
  · rw [g2, h2]
    cases Record.qual_view r <;> simp

/-- C2, witness: the double reverse-complement round-trip on the concrete
FASTQ record for `"@seq.0\nACGT\n+\n1234\n"`. -/
theorem c2_witness :
    Record.seq_view (Record.rev_comp (Record.rev_comp fastqACGT)) =
      Record.seq_view fastqACGT ∧
    Record.qual_view (Record.rev_comp (Record.rev_comp fastqACGT)) =
      Record.qual_view fastqACGT :=
  c2_roundtrip fastqACGT (by decide) (by decide)

/-- C3, amended: for every record whose sequence bytes all lie in
`{A,a,C,c,G,g,T,t,N,n}`, `seq_rev_comp` returns the reversed sequence mapped
through the complement table A↔T, C↔G (case preserved) with `N` sent to `J`
and `n` to `j`; being a pure function of the record it mutates nothing. -/
theorem c3_amended (r : Record)
    (h : (Record.seq_view r).all (fun c =>
      c == 65 || c == 97 || c == 67 || c == 99 || c == 71 || c == 103 ||
      c == 84 || c == 116 || c == 78 || c == 110) = true) :
    Record.seq_rev_comp r = ((Record.seq_view r).reverse).map tableComp := by
  unfold Record.seq_rev_comp
  refine List.map_congr_left ?_
  intro c hc
  have hmem : c ∈ Record.seq_view r := List.mem_reverse.mp hc
  have hcv := (List.all_eq_true.mp h) c hmem
  simp only [Bool.or_eq_true, beq_iff_eq, or_assoc] at hcv
  rcases hcv with h' | h' | h' | h' | h' | h' | h' | h' | h' | h' <;>
    subst h' <;> decide

/-- C3, witness: the amended complement behaviour on a record whose sequence
is `"ACGTNacgtn"`. -/
theorem c3_witness :
    Record.seq_rev_comp
        (Record.new_fasta
          ([62, 120, 10] ++ [65, 67, 71, 84, 78, 97, 99, 103, 116, 110] ++ [10]) 2 11) =
      ((Record.seq_view
        (Record.new_fasta
          ([62, 120, 10] ++ [65, 67, 71, 84, 78, 97, 99, 103, 116, 110] ++ [10]) 2 11)).reverse).map
        tableComp :=
  c3_amended _ (by decide)

/-- The buffer rewrite performed by `trim_left` on a decomposed FASTA
record with a usable trim size. -/
lemma trim_left_shape_fasta (r : Record) (k : Nat) (M I Sv : Bytes) (st : Nat)
    (hp : r.plus = none) (hq : r.qual = none)
    (hdata : r.data = M ++ I ++ Sv ++ [st])
    (hM : M.length = 1) (hI : I.length = r.id) (hSv : Sv.length = r.seq - 1)
    (hseq : 1 ≤ r.seq) (hk : k ≤ r.seq - 1) :
    Record.trim_left r k =
      .ok { r with data := M ++ I ++ Sv.drop k ++ [st], seq := r.seq - k } := by
  have hkb : ¬ k > r.seq := by omega
  have hA : r.data = (M ++ I) ++ Sv.take k ++ (Sv.drop k ++ [st]) := by
    rw [hdata]
    conv_lhs => rw [← List.take_append_drop k Sv]
    simp only [List.append_assoc]
  have e1 : replaceSeg r.data (1 + r.id) (1 + r.id + k) []
      = (M ++ I) ++ [] ++ (Sv.drop k ++ [st]) := by
    rw [hA]
    exact replaceSeg_mid _ _ _ _ _ _ (by simp [hM, hI]) (by simp [hM, hI, hSv]; omega)
  unfold Record.trim_left
  rw [if_neg hkb]
  simp only [hp, hq]
  rw [e1]
  simp [List.append_assoc]

/-- The buffer rewrite performed by `trim_left` on a decomposed FASTQ
record with a usable trim size. -/
lemma trim_left_shape_fastq (r : Record) (p q k : Nat) (M I Sv P Qv : Bytes)
    (st qt : Nat)
    (hp : r.plus = some p) (hq : r.qual = some q)
    (hdata : r.data = M ++ I ++ Sv ++ [st] ++ P ++ Qv ++ [qt])
    (hM : M.length = 1) (hI : I.length = r.id) (hSv : Sv.length = r.seq - 1)
    (hP : P.length = p) (hQv : Qv.length = q - 1)
    (hseq : 1 ≤ r.seq) (hk : k ≤ r.seq - 1) (hkq : k ≤ q - 1) (hq1 : 1 ≤ q) :
    Record.trim_left r k =
      .ok { r with
              seq := r.seq - k, qual := some (q - k),
              data := M ++ I ++ Sv.drop k ++ [st] ++ P ++ Qv.drop k ++ [qt] } := by
  have hkb : ¬ k > r.seq := by omega
  have hA : r.data = (M ++ I) ++ Sv.take k ++ (Sv.drop k ++ ([st] ++ P ++ Qv ++ [qt])) := by
    rw [hdata]
    conv_lhs => rw [← List.take_append_drop k Sv]
    simp only [List.append_assoc]
  have e1 : replaceSeg r.data (1 + r.id) (1 + r.id + k) []
      = ((M ++ I ++ Sv.drop k ++ [st] ++ P) ++ Qv.take k ++ (Qv.drop k ++ [qt])) := by
    rw [hA]
    rw [replaceSeg_mid _ _ _ _ _ _ (by simp [hM, hI]) (by simp [hM, hI, hSv]; omega)]
    conv_lhs => rw [← List.take_append_drop k Qv]
    simp only [List.append_assoc, List.nil_append, List.append_nil]
  have e2 : replaceSeg ((M ++ I ++ Sv.drop k ++ [st] ++ P) ++ Qv.take k ++ (Qv.drop k ++ [qt]))
        (1 + r.id + (r.seq - k) + p) (1 + r.id + (r.seq - k) + p + k) []
      = (M ++ I ++ Sv.drop k ++ [st] ++ P) ++ [] ++ (Qv.drop k ++ [qt]) :=
    replaceSeg_mid _ _ _ _ _ _ (by simp [hM, hI, hSv, hP]; omega)
      (by simp [hM, hI, hSv, hP, hQv]; omega)
  unfold Record.trim_left
  rw [if_neg hkb]
  simp only [hp, hq]
  rw [e1, e2]
  simp [List.append_assoc]

/-- The buffer rewrite performed by `trim_right` on a decomposed FASTA
record with a usable trim size. -/
lemma trim_right_shape_fasta (r : Record) (k : Nat) (M I Sv : Bytes) (st : Nat)
    (hp : r.plus = none) (hq : r.qual = none)
    (hdata : r.data = M ++ I ++ Sv ++ [st])
    (hM : M.length = 1) (hI : I.length = r.id) (hSv : Sv.length = r.seq - 1)
    (hseq : 1 ≤ r.seq) (hk : k ≤ r.seq - 1) :
    Record.trim_right r k =
      .ok { r with
              seq := r.seq - k,
              data := M ++ I ++ Sv.take (r.seq - 1 - k) ++ [st] } := by
  have hkb : ¬ k > r.seq := by omega
  have hA : r.data = (M ++ I ++ Sv.take (r.seq - 1 - k)) ++ Sv.drop (r.seq - 1 - k) ++ [st] := by
    rw [hdata]
    conv_lhs => rw [← List.take_append_drop (r.seq - 1 - k) Sv]
    simp only [List.append_assoc]
  have e1 : replaceSeg r.data (r.id + r.seq - k) (r.id + r.seq) []
      = (M ++ I ++ Sv.take (r.seq - 1 - k)) ++ [] ++ [st] := by
    rw [hA]
    exact replaceSeg_mid _ _ _ _ _ _ (by simp [hM, hI, hSv]; omega)
      (by simp [hM, hI, hSv]; omega)
  unfold Record.trim_right
  rw [if_neg hkb]
  simp only [hp, hq]
  rw [e1]
  simp [List.append_assoc]

/-- The buffer rewrite performed by `trim_right` on a decomposed FASTQ
record with a usable trim size. -/
lemma trim_right_shape_fastq (r : Record) (p q k : Nat) (M I Sv P Qv : Bytes)
    (st qt : Nat)
    (hp : r.plus = some p) (hq : r.qual = some q)
    (hdata : r.data = M ++ I ++ Sv ++ [st] ++ P ++ Qv ++ [qt])
    (hM : M.length = 1) (hI : I.length = r.id) (hSv : Sv.length = r.seq - 1)
    (hP : P.length = p) (hQv : Qv.length = q - 1)
    (hseq : 1 ≤ r.seq) (hk : k ≤ r.seq - 1) (hkq : k ≤ q - 1) (hq1 : 1 ≤ q) :
    Record.trim_right r k =
      .ok { r with
              seq := r.seq - k, qual := some (q - k),
              data := M ++ I ++ Sv.take (r.seq - 1 - k) ++ [st] ++ P ++
                Qv.take (q - 1 - k) ++ [qt] } := by
  have hkb : ¬ k > r.seq := by omega
  have hA : r.data = (M ++ I ++ Sv.take (r.seq - 1 - k)) ++ Sv.drop (r.seq - 1 - k) ++
      ([st] ++ P ++ Qv ++ [qt]) := by
    rw [hdata]
    conv_lhs => rw [← List.take_append_drop (r.seq - 1 - k) Sv]
    simp only [List.append_assoc]
  have e1 : replaceSeg r.data (r.id + r.seq - k) (r.id + r.seq) []
      = ((M ++ I ++ Sv.take (r.seq - 1 - k) ++ [st] ++ P ++ Qv.take (q - 1 - k)) ++
          Qv.drop (q - 1 - k) ++ [qt]) := by
    rw [hA]
    rw [replaceSeg_mid _ _ _ _ _ _ (by simp [hM, hI, hSv]; omega)
      (by simp [hM, hI, hSv]; omega)]
    conv_lhs => rw [← List.take_append_drop (q - 1 - k) Qv]
    simp only [List.append_assoc, List.nil_append, List.append_nil]
  have e2 : replaceSeg ((M ++ I ++ Sv.take (r.seq - 1 - k) ++ [st] ++ P ++ Qv.take (q - 1 - k)) ++
        Qv.drop (q - 1 - k) ++ [qt])
        (r.id + (r.seq - k) + p + q - k) (r.id + (r.seq - k) + p + q) []
      = (M ++ I ++ Sv.take (r.seq - 1 - k) ++ [st] ++ P ++ Qv.take (q - 1 - k)) ++ [] ++ [qt] :=
    replaceSeg_mid _ _ _ _ _ _
      (by simp only [List.length_append, List.length_take, List.length_drop,
            List.length_cons, List.length_nil, hM, hI, hSv, hP, hQv]; omega)
      (by simp only [List.length_append, List.length_take, List.length_drop,
            List.length_cons, List.length_nil, hM, hI, hSv, hP, hQv]; omega)
  unfold Record.trim_right
  rw [if_neg hkb]
  simp only [hp, hq]
  rw [e1, e2]
  simp [List.append_assoc]

/-- C5, amended: for every well-formed aligned record and every trim size
`k` strictly below the stored `seq` count (the code also accepts `k` equal to
the stored count, where this accounting fails), `trim_left` drops exactly the
first `k` visible sequence bytes and `trim_right` exactly the last `k`, the
visible length shrinks by `k`, and for FASTQ the aligned quality bytes are
removed the same way. -/
theorem c5_amended (r : Record) (hw : wf r) (hal : alignedQ r) (k : Nat)
    (hk : k < r.seq) :
    ∃ rl rr, Record.trim_left r k = .ok rl ∧ Record.trim_right r k = .ok rr ∧
      Record.seq_view rl = (Record.seq_view r).drop k ∧
      (Record.seq_view rl).length = (Record.seq_view r).length - k ∧
      (Record.seq_view r).take k ++ Record.seq_view rl = Record.seq_view r ∧
      Record.qual_view rl = (Record.qual_view r).map (List.drop k) ∧
      Record.seq_view rr = (Record.seq_view r).take ((Record.seq_view r).length - k) ∧
      (Record.seq_view rr).length = (Record.seq_view r).length - k ∧
      Record.qual_view rr = (Record.qual_view r).map
        (fun l => l.take (l.length - k)) := by
  obtain ⟨hid, hseq, hlen, hiff, hpl, hql⟩ := hw
  have hkk : k ≤ r.seq - 1 := by omega
  cases hp : r.plus with
  | none =>
      have hq : r.qual = none := hiff.mp hp
      obtain ⟨M, I, Sv, st, hdata, hM, hI, hSv⟩ :=
        wf_decomp_fasta r hp hq ⟨hid, hseq, hlen, hiff, hpl, hql⟩
      have hsv := seq_view_shape r M I Sv [st] hdata hM hI hSv hseq
      have hsl : Record.seq_view
          { r with data := M ++ I ++ Sv.drop k ++ [st], seq := r.seq - k } = Sv.drop k := by
        refine seq_view_shape _ M I (Sv.drop k) [st] rfl hM hI ?_ ?_
        · simp [hSv]
          omega
        · show 1 ≤ r.seq - k
          omega
      have hsr : Record.seq_view
          { r with
            seq := r.seq - k,
            data := M ++ I ++ Sv.take (r.seq - 1 - k) ++ [st] } = Sv.take (r.seq - 1 - k) := by
        refine seq_view_shape _ M I (Sv.take (r.seq - 1 - k)) [st] rfl hM hI ?_ ?_
        · simp [hSv]
          omega
        · show 1 ≤ r.seq - k
          omega
      refine ⟨_, _, trim_left_shape_fasta r k M I Sv st hp hq hdata hM hI hSv hseq hkk,
        trim_right_shape_fasta r k M I Sv st hp hq hdata hM hI hSv hseq hkk,
        ?_, ?_, ?_, ?_, ?_, ?_, ?_⟩
      · rw [hsl, hsv]
      · rw [hsl, hsv]
        simp
      · rw [hsl, hsv]
        exact List.take_append_drop k Sv
      · simp [Record.qual_view, hp, hq]
      · rw [hsr, hsv, hSv]
      · rw [hsr, hsv]
        simp [hSv]
      · simp [Record.qual_view, hp, hq]
  | some p =>
      have hqex : ∃ q, r.qual = some q := by
        cases hqv : r.qual with
        | none => exact absurd (hiff.mpr hqv) (by simp [hp])
        | some q => exact ⟨q, rfl⟩
      obtain ⟨q, hq⟩ := hqex
      have hqq : q = r.seq := by
        have h := hal (by rw [hq]; simp)
        simpa [qualLen, hq] using h
      have hkq : k ≤ q - 1 := by omega
      have hq1 : 1 ≤ q := by omega
      obtain ⟨M, I, Sv, st, P, Qv, qt, hdata, hM, hI, hSv, hP, hQv, -⟩ :=
        wf_decomp_fastq r p q hp hq ⟨hid, hseq, hlen, hiff, hpl, hql⟩
      have hsv := seq_view_shape r M I Sv ([st] ++ P ++ Qv ++ [qt])
        (by rw [hdata]; simp [List.append_assoc]) hM hI hSv hseq
      have hqvw := qual_view_shape r p q M I Sv P Qv st qt hp hq hdata hM hI hSv hP
        hQv hseq hq1
      have hsl : Record.seq_view
          { r with
            seq := r.seq - k, qual := some (q - k),
            data := M ++ I ++ Sv.drop k ++ [st] ++ P ++ Qv.drop k ++ [qt] } = Sv.drop k := by
        refine seq_view_shape _ M I (Sv.drop k) ([st] ++ P ++ Qv.drop k ++ [qt]) ?_ hM hI ?_ ?_
        · simp only [List.append_assoc]
        · simp [hSv]
          omega
        · show 1 ≤ r.seq - k
          omega
      have hql2 : Record.qual_view
          { r with
            seq := r.seq - k, qual := some (q - k),
            data := M ++ I ++ Sv.drop k ++ [st] ++ P ++ Qv.drop k ++ [qt] } =
          some (Qv.drop k) := by
        refine qual_view_shape _ p (q - k) M I (Sv.drop k) P (Qv.drop k) st qt hp rfl rfl
          hM hI ?_ hP ?_ ?_ ?_
        · simp [hSv]
          omega
        · simp [hQv]
          omega
        · show 1 ≤ r.seq - k
          omega
        · omega
      have hsr : Record.seq_view
          { r with
            seq := r.seq - k, qual := some (q - k),
            data := M ++ I ++ Sv.take (r.seq - 1 - k) ++ [st] ++ P ++
              Qv.take (q - 1 - k) ++ [qt] } = Sv.take (r.seq - 1 - k) := by
        refine seq_view_shape _ M I (Sv.take (r.seq - 1 - k))
          ([st] ++ P ++ Qv.take (q - 1 - k) ++ [qt]) ?_ hM hI ?_ ?_
        · simp only [List.append_assoc]
        · simp [hSv]
          omega
        · show 1 ≤ r.seq - k
          omega
      have hqr2 : Record.qual_view
          { r with
            seq := r.seq - k, qual := some (q - k),
            data := M ++ I ++ Sv.take (r.seq - 1 - k) ++ [st] ++ P ++
              Qv.take (q - 1 - k) ++ [qt] } = some (Qv.take (q - 1 - k)) := by
        refine qual_view_shape _ p (q - k) M I (Sv.take (r.seq - 1 - k)) P
          (Qv.take (q - 1 - k)) st qt hp rfl rfl hM hI ?_ hP ?_ ?_ ?_
        · simp [hSv]
          omega
        · simp [hQv]
          omega
        · show 1 ≤ r.seq - k
          omega
        · omega
      refine ⟨_, _,
        trim_left_shape_fastq r p q k M I Sv P Qv st qt hp hq hdata hM hI hSv hP hQv
          hseq hkk hkq hq1,
        trim_right_shape_fastq r p q k M I Sv P Qv st qt hp hq hdata hM hI hSv hP hQv
          hseq hkk hkq hq1,
        ?_, ?_, ?_, ?_, ?_, ?_, ?_⟩
      · rw [hsl, hsv]
      · rw [hsl, hsv]
        simp
      · rw [hsl, hsv]
        exact List.take_append_drop k Sv
      · rw [hql2, hqvw]
        simp
      · rw [hsr, hsv, hSv]
      · rw [hsr, hsv]
        simp [hSv]
      · rw [hqr2, hqvw]
        simp [hQv]

/-- C5, witness: the amended trim accounting applied to the concrete FASTQ
record for `"@seq.0\nACGT\n+\n1234\n"` with trim size `2`. -/
theorem c5_witness :
    ∃ rl rr, Record.trim_left fastqACGT 2 = .ok rl ∧
      Record.trim_right fastqACGT 2 = .ok rr ∧
      Record.seq_view rl = (Record.seq_view fastqACGT).drop 2 ∧
      (Record.seq_view rl).length = (Record.seq_view fastqACGT).length - 2 ∧
      (Record.seq_view fastqACGT).take 2 ++ Record.seq_view rl =
        Record.seq_view fastqACGT ∧
      Record.qual_view rl = (Record.qual_view fastqACGT).map (List.drop 2) ∧
      Record.seq_view rr =
        (Record.seq_view fastqACGT).take ((Record.seq_view fastqACGT).length - 2) ∧
      (Record.seq_view rr).length = (Record.seq_view fastqACGT).length - 2 ∧
      Record.qual_view rr = (Record.qual_view fastqACGT).map
        (fun l => l.take (l.length - 2)) :=
  c5_amended fastqACGT (by decide) (by decide) 2 (by decide)

/-- C1, amended: on a well-formed aligned record, `trim_left`/`trim_right`
fail with `OutOfRange` exactly when the size strictly exceeds the stored
`seq` count (so a size equal to the stored count — one more than the visible
sequence length — is still accepted), while `insert_seq` fails exactly when
the position is at or above the stored count; and for sizes strictly below
the stored count the trims, and for accepted positions the insert, return a
record that is again well-formed and aligned (offsets not corrupted). -/
theorem c1_amended (r : Record) (hw : wf r) (hal : alignedQ r) (k pos : Nat)
    (s : Bytes) :
    (isOkE (Record.trim_left r k) = true ↔ k ≤ r.seq) ∧
    (isOkE (Record.trim_right r k) = true ↔ k ≤ r.seq) ∧
    (isOkE (Record.insert_seq r s pos) = true ↔ pos < r.seq) ∧
    (k < r.seq → ∀ r₁, Record.trim_left r k = .ok r₁ → wf r₁ ∧ alignedQ r₁) ∧
    (k < r.seq → ∀ r₁, Record.trim_right r k = .ok r₁ → wf r₁ ∧ alignedQ r₁) ∧
    (pos < r.seq → ∀ r₁, Record.insert_seq r s pos = .ok r₁ → wf r₁ ∧ alignedQ r₁) := by
  obtain ⟨hid, hseq, hlen, hiff, hpl, hql⟩ := hw
  refine ⟨?_, ?_, ?_, ?_, ?_, ?_⟩
  · unfold Record.trim_left
    split
    · next hgt =>
        simp [isOkE]
        omega
    · next hgt =>
        rcases hp2 : r.plus with _ | p <;> rcases hq2 : r.qual with _ | q <;>
          simp [isOkE, hp2, hq2] <;> omega
  · unfold Record.trim_right
    split
    · next hgt =>
        simp [isOkE]
        omega
    · next hgt =>
        rcases hp2 : r.plus with _ | p <;> rcases hq2 : r.qual with _ | q <;>
          simp [isOkE, hp2, hq2] <;> omega
  · unfold Record.insert_seq
    split
    · next hge =>
        simp [isOkE]
        omega
    · next hge =>
        unfold Record.insert_qual
        rcases hq2 : r.qual with _ | q
        · simp [isOkE, hq2]
          omega
        · have hqq : q = r.seq := by
            have h := hal (by rw [hq2]; simp)
            simpa [qualLen, hq2] using h
          rcases hp2 : r.plus with _ | p
          · exact absurd (hiff.mp hp2) (by simp [hq2])
          · have hnb : ¬ pos > q := by omega
            simp [isOkE, hp2, hq2, hnb]
            omega
  · intro hk r₁ heq
    have hkk : k ≤ r.seq - 1 := by omega
    cases hp2 : r.plus with
    | none =>
        have hq2 : r.qual = none := hiff.mp hp2
        obtain ⟨M, I, Sv, st, hdata, hM, hI, hSv⟩ :=
          wf_decomp_fasta r hp2 hq2 ⟨hid, hseq, hlen, hiff, hpl, hql⟩
        rw [trim_left_shape_fasta r k M I Sv st hp2 hq2 hdata hM hI hSv hseq hkk] at heq
        injection heq with heq
        subst heq
        constructor
        · refine ⟨hid, by show 1 ≤ r.seq - k; omega, ?_, hiff, hpl, hql⟩
          have hlen2 := congrArg List.length hdata
          simp [plusLen, qualLen, hp2, hq2, hM, hI, hSv] at hlen2 ⊢
          omega
        · intro h
          exact absurd hq2 h
    | some p =>
        have hqex : ∃ q, r.qual = some q := by
          cases hqv : r.qual with
          | none => exact absurd (hiff.mpr hqv) (by simp [hp2])
          | some q => exact ⟨q, rfl⟩
        obtain ⟨q, hq2⟩ := hqex
        have hqq : q = r.seq := by
          have h := hal (by rw [hq2]; simp)
          simpa [qualLen, hq2] using h
        obtain ⟨M, I, Sv, st, P, Qv, qt, hdata, hM, hI, hSv, hP, hQv, hq1⟩ :=
          wf_decomp_fastq r p q hp2 hq2 ⟨hid, hseq, hlen, hiff, hpl, hql⟩
        rw [trim_left_shape_fastq r p q k M I Sv P Qv st qt hp2 hq2 hdata hM hI hSv
          hP hQv hseq hkk (by omega) hq1] at heq
        injection heq with heq
        subst heq
        constructor
        · refine ⟨hid, by show 1 ≤ r.seq - k; omega, ?_, by simp [hp2], ?_, ?_⟩
          · have hlen2 := congrArg List.length hdata
            simp [plusLen, qualLen, hp2, hq2, hM, hI, hSv, hP, hQv] at hlen2 ⊢
            omega
          · intro h
            have hpv := hpl (by simp [hp2])
            simp only [plusLen, hp2, Option.getD_some] at hpv ⊢
            exact hpv
          · intro h
            show 1 ≤ q - k
            omega
        · intro h
          show q - k = r.seq - k
          omega
  · intro hk r₁ heq
    have hkk : k ≤ r.seq - 1 := by omega
    cases hp2 : r.plus with
    | none =>
        have hq2 : r.qual = none := hiff.mp hp2
        obtain ⟨M, I, Sv, st, hdata, hM, hI, hSv⟩ :=
          wf_decomp_fasta r hp2 hq2 ⟨hid, hseq, hlen, hiff, hpl, hql⟩
        rw [trim_right_shape_fasta r k M I Sv st hp2 hq2 hdata hM hI hSv hseq hkk] at heq
        injection heq with heq
        subst heq
        constructor
        · refine ⟨hid, by show 1 ≤ r.seq - k; omega, ?_, hiff, hpl, hql⟩
          have hlen2 := congrArg List.length hdata
          simp [plusLen, qualLen, hp2, hq2, hM, hI, hSv] at hlen2 ⊢
          omega
        · intro h
          exact absurd hq2 h
    | some p =>
        have hqex : ∃ q, r.qual = some q := by
          cases hqv : r.qual with
          | none => exact absurd (hiff.mpr hqv) (by simp [hp2])
          | some q => exact ⟨q, rfl⟩
        obtain ⟨q, hq2⟩ := hqex
        have hqq : q = r.seq := by
          have h := hal (by rw [hq2]; simp)
          simpa [qualLen, hq2] using h
        obtain ⟨M, I, Sv, st, P, Qv, qt, hdata, hM, hI, hSv, hP, hQv, hq1⟩ :=
          wf_decomp_fastq r p q hp2 hq2 ⟨hid, hseq, hlen, hiff, hpl, hql⟩
        rw [trim_right_shape_fastq r p q k M I Sv P Qv st qt hp2 hq2 hdata hM hI hSv
          hP hQv hseq hkk (by omega) hq1] at heq
        injection heq with heq
        subst heq
        constructor
        · refine ⟨hid, by show 1 ≤ r.seq - k; omega, ?_, by simp [hp2], ?_, ?_⟩
          · have hlen2 := congrArg List.length hdata
            simp [plusLen, qualLen, hp2, hq2, hM, hI, hSv, hP, hQv] at hlen2 ⊢
            omega
          · intro h
            have hpv := hpl (by simp [hp2])
            simp only [plusLen, hp2, Option.getD_some] at hpv ⊢
            exact hpv
          · intro h
            show 1 ≤ q - k
            omega
        · intro h
          show q - k = r.seq - k
          omega
  · intro hpos r₁ heq
    unfold Record.insert_seq at heq
    rw [if_neg (by omega)] at heq
    unfold Record.insert_qual at heq
    cases hq2 : r.qual with
    | none =>
        have hp2 : r.plus = none := hiff.mpr hq2
        have hlenf : r.data.length = 1 + r.id + r.seq := by
          simpa [plusLen, qualLen, hp2, hq2] using hlen
        simp only [hq2] at heq
        injection heq with heq
        subst heq
        constructor
        · refine ⟨hid, by show 1 ≤ r.seq + s.length; omega, ?_, ?_, ?_, ?_⟩
          · have hL := replaceSeg_length r.data (1 + r.id + pos) (1 + r.id + pos) s
              (by omega)
            simp [plusLen, qualLen, hp2]
            omega
          · simp [hp2]
          · intro h
            exact absurd hp2 h
          · intro h
            exact absurd rfl h
        · intro h
          exact absurd rfl h
    | some q =>
        have hqq : q = r.seq := by
          have h := hal (by rw [hq2]; simp)
          simpa [qualLen, hq2] using h
        simp only [hq2] at heq
        rw [if_neg (by omega)] at heq
        cases hp2 : r.plus with
        | none => exact absurd (hiff.mp hp2) (by simp [hq2])
        | some p =>
            have hlenq : r.data.length = 1 + r.id + r.seq + p + q := by
              simpa [plusLen, qualLen, hp2, hq2] using hlen
            simp only [hp2] at heq
            injection heq with heq
            subst heq
            have hL1 := replaceSeg_length r.data (1 + r.id + pos) (1 + r.id + pos) s
              (by omega)
            have hL2 := replaceSeg_length
              (replaceSeg r.data (1 + r.id + pos) (1 + r.id + pos) s)
              (1 + r.id + (r.seq + s.length) + p + pos)
              (1 + r.id + (r.seq + s.length) + p + pos)
              (List.replicate s.length DEFAULT_QUAL) (by omega)
            simp only [List.length_replicate] at hL2
            constructor
            · refine ⟨hid, by show 1 ≤ r.seq + s.length; omega, ?_, by simp [hp2],
                ?_, ?_⟩
              · simp [plusLen, qualLen, hp2, hq2]
                omega
              · intro h
                show 1 ≤ p
                have := hpl (by simp [hp2])
                simpa [plusLen, hp2] using this
              · intro h
                show 1 ≤ q + s.length
                omega
            · intro h
              show q + s.length = r.seq + s.length
              omega

/-- C1, witness: the amended acceptance characterization applied to the
concrete FASTQ record for `"@seq.0\nACGT\n+\n1234\n"` with trim size `2` and
insertion at position `2`. -/
theorem c1_witness :
    isOkE (Record.trim_left fastqACGT 2) = true ∧
    isOkE (Record.insert_seq fastqACGT [84, 84] 2) = true :=
  ⟨((c1_amended fastqACGT (by decide) (by decide) 2 2 [84, 84]).1).mpr (by decide),
   ((c1_amended fastqACGT (by decide) (by decide) 2 2 [84, 84]).2.2.1).mpr (by decide)⟩

end Fxread
